import Mathlib

/-!
Shallow embedding of the mapkureader acquisition pipeline, translated from
the repository sources:

* `src/mapkureader/load/geo.py` — affine pixel/geo coordinate transforms
  (`pixel_to_geo`, `geo_to_pixel`);
* `src/mapkureader/load/images.py` — `MapImage.patchify` and
  `MapImage._is_blank`;
* `src/mapkureader/load/downloader.py` — `IIIFDownloader._download_tiled`
  and `IIIFDownloader.get_region`.

Modelling conventions: Python ints are `Nat`/`Int`, Python floats are `ℚ`
(all float computations the claims exercise are exact), numpy arrays are a
record of dimensions plus a total pixel function, and fallible code returns
`Except`.  Network fetches are modelled by an explicit `server` function
from a requested region to the decoded image the server returned, and the
list of issued requests is threaded through the tiled download so that
claims about which requests are made (and whether any are made at all)
are statable.
-/

/- ----------------------------------------------------------------
   load/geo.py
   ---------------------------------------------------------------- -/

/-- A 6-parameter affine transform, laid out as rasterio's
`Affine(a, b, c, d, e, f)`: forward map `(x, y) ↦ (a*x + b*y + c, d*x + e*y + f)`. -/
structure AffineT where
  a : ℚ
  b : ℚ
  c : ℚ
  d : ℚ
  e : ℚ
  f : ℚ

/-- Determinant of the linear part, used by the affine library to decide
invertibility. -/
def AffineT.det (t : AffineT) : ℚ := t.a * t.e - t.b * t.d

/-- `pixel_to_geo` from `load/geo.py`: apply the affine transform to a pixel
coordinate. -/
def pixel_to_geo (x y : ℚ) (t : AffineT) : ℚ × ℚ :=
  (t.a * x + t.b * y + t.c, t.d * x + t.e * y + t.f)

inductive GeoErr where
  | singularTransform
deriving DecidableEq

/-- Inverse affine transform, as computed by the affine library's unary
inversion operator `~transform` (used by `geo_to_pixel`); only meaningful
when `det ≠ 0`, the singular case is handled in `geo_to_pixel`. -/
def AffineT.inv (t : AffineT) : AffineT where
  a := t.e / t.det
  b := -t.b / t.det
  c := (t.b * t.f - t.c * t.e) / t.det
  d := -t.d / t.det
  e := t.a / t.det
  f := (t.c * t.d - t.a * t.f) / t.det

/-- `geo_to_pixel` from `load/geo.py`: apply the inverse transform; the
inversion raises (here: returns an error) when the transform is singular. -/
def geo_to_pixel (gx gy : ℚ) (t : AffineT) : Except GeoErr (ℚ × ℚ) :=
  if t.det = 0 then Except.error GeoErr.singularTransform
  else Except.ok (pixel_to_geo gx gy t.inv)

/- ----------------------------------------------------------------
   load/downloader.py : IIIFDownloader.get_region (size computation)
   ---------------------------------------------------------------- -/

/-- The `size` component of a IIIF image request: `"full"` or an explicit
`"{sw},{sh}"`. -/
inductive SizeParam where
  | full
  | exact (sw sh : Nat)
deriving DecidableEq

/-- Size computation of `IIIFDownloader.get_region`: Python computes
`sw = max(1, int(w * scale))`, `sh = max(1, int(h * scale))` when
`scale < 1.0` (Python `int()` truncates toward zero, which is the floor for
the nonnegative values arising here), and the string `"full"` otherwise. -/
def getRegionSizeParam (w h : Nat) (scale : ℚ) : SizeParam :=
  if scale < 1 then
    SizeParam.exact (max 1 (Int.toNat ⌊(w : ℚ) * scale⌋)) (max 1 (Int.toNat ⌊(h : ℚ) * scale⌋))
  else SizeParam.full

/-- The full request built by `get_region`: region `x,y,w,h` plus size. -/
def getRegionRequest (x y w h : Nat) (scale : ℚ) : (Nat × Nat × Nat × Nat) × SizeParam :=
  ((x, y, w, h), getRegionSizeParam w h scale)

/- ----------------------------------------------------------------
   load/images.py : MapImage, _is_blank, patchify
   ---------------------------------------------------------------- -/

/-- A raster as held by `MapImage.data`: a numpy array of `height × width`
pixels, either with a channel axis (`channels = some nc`, ndim 3) or without
(`channels = none`, ndim 2); `is8bit` records whether `dtype == np.uint8`.
Pixel values are `Int` so that non-uint8 sample types (signed or float
rasters compared against exactly 0 by `_is_blank`) are representable. -/
structure Raster where
  height : Nat
  width : Nat
  channels : Option Nat
  is8bit : Bool
  pixel : Nat → Nat → Nat → Int

/-- One pixel of the "white" mask computed by `_is_blank` for uint8 data:
`np.all(patch >= 250, axis=-1)` when there is a channel axis, else
`patch >= 250`. -/
def isWhite (img : Raster) (r c : Nat) : Bool :=
  match img.channels with
  | none => decide (250 ≤ img.pixel r c 0)
  | some nc => decide (∀ ch < nc, 250 ≤ img.pixel r c ch)

/-- Number of white pixels of the `ph × pw` patch whose top-left corner is
`(x, y)` (the count underlying `np.mean(white_pixels)`). -/
def whiteCount (img : Raster) (x y pw ph : Nat) : Nat :=
  ((Finset.range ph ×ˢ Finset.range pw).filter
    (fun rc => isWhite img (y + rc.1) (x + rc.2) = true)).card

/-- Number of exactly-zero elements of the patch (the count underlying
`np.mean(patch == 0)` for non-uint8 data; the mean runs over every element,
channels included). -/
def elemZeroCount (img : Raster) (x y pw ph : Nat) : Nat :=
  match img.channels with
  | none =>
    ((Finset.range ph ×ˢ Finset.range pw).filter
      (fun rc => img.pixel (y + rc.1) (x + rc.2) 0 = 0)).card
  | some nc =>
    (((Finset.range ph ×ˢ Finset.range pw) ×ˢ Finset.range nc).filter
      (fun rcc => img.pixel (y + rcc.1.1) (x + rcc.1.2) rcc.2 = 0)).card

/-- Number of elements the non-uint8 mean divides by. -/
def elemTotal (img : Raster) (pw ph : Nat) : Nat :=
  match img.channels with
  | none => ph * pw
  | some nc => ph * pw * nc

/-- `MapImage._is_blank`: blank ratio strictly greater than the threshold.
For uint8 data the ratio is the fraction of white pixels (every channel
at least 250); otherwise the fraction of exactly-zero elements. -/
def isBlank (img : Raster) (x y pw ph : Nat) (threshold : ℚ) : Bool :=
  if img.is8bit then
    decide (threshold < (whiteCount img x y pw ph : ℚ) / ((ph : ℚ) * (pw : ℚ)))
  else
    decide (threshold < (elemZeroCount img x y pw ph : ℚ) / (elemTotal img pw ph : ℚ))

/-- One emitted patch: `pixel_bounds = (x, y, pw, ph)` plus the grid indices
`row`, `col` assigned by `patchify`. -/
structure Patch where
  pixelX : Nat
  pixelY : Nat
  pixelW : Nat
  pixelH : Nat
  row : Nat
  col : Nat
deriving DecidableEq

/-- Python `range(0, stop, step)` for `step > 0`: the `⌈stop/step⌉` values
`0, step, 2*step, …` below `stop`. -/
def pyRange (stop step : Nat) : List Nat :=
  List.range' 0 ((stop + step - 1) / step) step

/-- Inner `x` loop of `MapImage.patchify` over one row of the grid.
`colIdx` is incremented once per step, including steps discarded for zero
extent or blank content; `rowIdx` and `y` are fixed for the row.  The patch
slice `data[y:y+patch_size, x:x+patch_size]` has shape
`(min patchSize (height - y), min patchSize (width - x))`. -/
def patchRow (img : Raster) (patchSize : Nat) (threshold : ℚ) (skipBlank : Bool)
    (y rowIdx : Nat) : List Nat → Nat → List Patch
  | [], _ => []
  | x :: xs, colIdx =>
    let ph := min patchSize (img.height - y)
    let pw := min patchSize (img.width - x)
    if ph = 0 ∨ pw = 0 then
      patchRow img patchSize threshold skipBlank y rowIdx xs (colIdx + 1)
    else if skipBlank && isBlank img x y pw ph threshold then
      patchRow img patchSize threshold skipBlank y rowIdx xs (colIdx + 1)
    else
      { pixelX := x, pixelY := y, pixelW := pw, pixelH := ph,
        row := rowIdx, col := colIdx } ::
        patchRow img patchSize threshold skipBlank y rowIdx xs (colIdx + 1)

/-- Outer `y` loop of `MapImage.patchify`: `rowIdx` is incremented once per
outer step; each row restarts `colIdx` at 0 over the same `x` range. -/
def patchRows (img : Raster) (patchSize : Nat) (threshold : ℚ) (skipBlank : Bool)
    (stride : Nat) : List Nat → Nat → List Patch
  | [], _ => []
  | y :: ys, rowIdx =>
    patchRow img patchSize threshold skipBlank y rowIdx (pyRange img.width stride) 0 ++
      patchRows img patchSize threshold skipBlank stride ys (rowIdx + 1)

/-- `MapImage.patchify`: raises when `stride = patch_size - overlap ≤ 0`,
otherwise walks `y` and `x` from 0 in steps of `stride` and collects the
non-discarded patches in emission order. -/
def patchify (img : Raster) (patchSize overlap : Nat) (threshold : ℚ)
    (skipBlank : Bool) : Except String (List Patch) :=
  if patchSize ≤ overlap then Except.error "overlap must be less than patch_size"
  else
    let stride := patchSize - overlap
    Except.ok (patchRows img patchSize threshold skipBlank stride
      (pyRange img.height stride) 0)

/-- An all-white uint8 RGB raster (every sample 255). -/
def whiteRaster (H W : Nat) : Raster :=
  { height := H, width := W, channels := some 3, is8bit := true,
    pixel := fun _ _ _ => 255 }

/- ----------------------------------------------------------------
   load/downloader.py : IIIFDownloader._download_tiled
   ---------------------------------------------------------------- -/

/-- A decoded image as returned by `_fetch_image` and `np.array`: `th × tw`
pixels with `channels` samples each. -/
structure RawImage where
  th : Nat
  tw : Nat
  channels : Nat
  pixel : Nat → Nat → Nat → Nat

/-- `Image.convert("RGB")` applied at decode time by `_fetch_image`: the
result always has exactly 3 channels; a single-band source is replicated
across the three channels, otherwise the first three channels are kept. -/
def convertRGB (img : RawImage) : RawImage :=
  { th := img.th, tw := img.tw, channels := 3,
    pixel := fun r c ch =>
      if img.channels = 1 then img.pixel r c 0 else img.pixel r c ch }

/-- The destination buffer `np.zeros((height, width, 3), dtype=np.uint8)`
plus subsequent writes. -/
structure Canvas where
  height : Nat
  width : Nat
  channels : Nat
  pix : Nat → Nat → Nat → Nat

inductive FetchErr where
  | zeroDivision
  | broadcastMismatch
deriving DecidableEq

/-- The canvas after the in-place numpy assignment
`canvas[y : y + th, x : x + tw] = tile_arr[:, :, :3]`: pixels inside the
returned tile's extent at offset `(x, y)` take the tile's values, all
others keep their previous value. -/
def writeCanvas (cv : Canvas) (x y : Nat) (t : RawImage) : Canvas :=
  { cv with pix := fun r c ch =>
      if y ≤ r ∧ r < y + t.th ∧ x ≤ c ∧ c < x + t.tw then
        t.pixel (r - y) (c - x) ch
      else cv.pix r c ch }

/-- `canvas[y : y + th, x : x + tw] = tile_arr[:, :, :3]`: numpy clips the
slice to the canvas extent and raises a broadcast error when the clipped
shape no longer matches the tile's shape, i.e. exactly when the tile sticks
out past the canvas. -/
def writeTile (cv : Canvas) (x y : Nat) (t : RawImage) : Except FetchErr Canvas :=
  if cv.height < y + t.th ∨ cv.width < x + t.tw then
    Except.error FetchErr.broadcastMismatch
  else
    Except.ok (writeCanvas cv x y t)

/-- The zero-initialized destination canvas. -/
def zeroCanvas (H W : Nat) : Canvas :=
  { height := H, width := W, channels := 3, pix := fun _ _ _ => 0 }

/-- `cols = math.ceil(width / tile_sz)` (true division, then ceiling). -/
def gridCols (W : Nat) (T : Int) : Int := ⌈(W : ℚ) / (T : ℚ)⌉

/-- `rows = math.ceil(height / tile_sz)`. -/
def gridRows (H : Nat) (T : Int) : Int := ⌈(H : ℚ) / (T : ℚ)⌉

/-- A requested region `x,y,w,h`. -/
abbrev Region := Nat × Nat × Nat × Nat

/-- The row-major enumeration `(row, col)` of the tile grid, as produced by
the nested `for row in range(rows): for col in range(cols):` loops (empty
when either count is nonpositive). -/
def tilePairs (rows cols : Int) : List (Nat × Nat) :=
  (List.range rows.toNat).flatMap
    (fun r => (List.range cols.toNat).map (fun c => (r, c)))

/-- One iteration of the stitch loop: compute the grid cell's region, issue
the fetch for it (recorded in the request log), decode to RGB and write the
returned tile at offset `(x, y)`.  A previous failure short-circuits the
remaining iterations. -/
def stitchStep (W H Tn : Nat) (server : Nat → Nat → Nat → Nat → RawImage)
    (st : List Region × Except FetchErr Canvas) (rc : Nat × Nat) :
    List Region × Except FetchErr Canvas :=
  match st with
  | (reqs, Except.error e) => (reqs, Except.error e)
  | (reqs, Except.ok cv) =>
    let x := rc.2 * Tn
    let y := rc.1 * Tn
    let w := min Tn (W - x)
    let h := min Tn (H - y)
    (reqs ++ [(x, y, w, h)], writeTile cv x y (convertRGB (server x y w h)))

/-- `IIIFDownloader._download_tiled`, instrumented with the list of issued
tile requests. `T = 0` raises `ZeroDivisionError` in the `cols` computation
before anything is fetched; otherwise the grid is walked row-major and each
tile is fetched and stitched into the zero-initialized canvas. -/
def downloadTiled (W H : Nat) (T : Int)
    (server : Nat → Nat → Nat → Nat → RawImage) :
    List Region × Except FetchErr Canvas :=
  if T = 0 then ([], Except.error FetchErr.zeroDivision)
  else
    (tilePairs (gridRows H T) (gridCols W T)).foldl
      (stitchStep W H T.toNat server) ([], Except.ok (zeroCanvas H W))

/-- The pixel at `(r, c, ch)` of a tiled download's result, when it
succeeded. -/
def canvasPixel (res : List Region × Except FetchErr Canvas) (r c ch : Nat) :
    Option Nat :=
  match res.2 with
  | Except.ok cv => some (cv.pix r c ch)
  | Except.error _ => none

/-- The region `x = col*T, y = row*T, w = min(T, W - x), h = min(T, H - y)`
requested for grid cell `rc = (row, col)`. -/
def regionOf (W H Tn : Nat) (rc : Nat × Nat) : Region :=
  (rc.2 * Tn, rc.1 * Tn, min Tn (W - rc.2 * Tn), min Tn (H - rc.1 * Tn))

/-- The claim-side tile request plan: `cols = ⌈W/T⌉` by `rows = ⌈H/T⌉` grid
cells in row-major order, each with the region of `regionOf`. -/
def gridRegions (W H : Nat) (T : Int) : List Region :=
  (List.range (gridRows H T).toNat).flatMap
    (fun row => (List.range (gridCols W T).toNat).map
      (fun col => (col * T.toNat, row * T.toNat,
        min T.toNat (W - col * T.toNat), min T.toNat (H - row * T.toNat))))

/-- Tile `(row, col)` covers pixel `(r, c)` of the canvas when `(r, c)` lies
inside the extent the server actually returned for that cell's request. -/
def coveredBy (W H Tn : Nat) (server : Nat → Nat → Nat → Nat → RawImage)
    (p : Nat × Nat) (r c : Nat) : Prop :=
  p.1 * Tn ≤ r ∧ r < p.1 * Tn + (server (p.2 * Tn) (p.1 * Tn)
      (min Tn (W - p.2 * Tn)) (min Tn (H - p.1 * Tn))).th ∧
    p.2 * Tn ≤ c ∧ c < p.2 * Tn + (server (p.2 * Tn) (p.1 * Tn)
      (min Tn (W - p.2 * Tn)) (min Tn (H - p.1 * Tn))).tw

/-- Modelled from the spec (§4.2 defensive clamp): copy only the overlap
between the returned extent and the expected `w × h` extent at offset
`(x, y)`.  This is the spec-side stitcher that claim C4 compares the code
against. -/
def writeTileClamped (cv : Canvas) (x y w h : Nat) (t : RawImage) : Canvas :=
  { cv with pix := fun r c ch =>
      if y ≤ r ∧ r < min (y + min t.th h) cv.height ∧
          x ≤ c ∧ c < min (x + min t.tw w) cv.width then
        t.pixel (r - y) (c - x) ch
      else cv.pix r c ch }

/-- Modelled from the spec: the tiled fetch-and-stitch with the defensive
clamp of §4.2, over the same grid as the code. -/
def downloadTiledSpec (W H Tn : Nat)
    (server : Nat → Nat → Nat → Nat → RawImage) : Canvas :=
  (tilePairs (gridRows H (Tn : Int)) (gridCols W (Tn : Int))).foldl
    (fun cv rc =>
      let x := rc.2 * Tn
      let y := rc.1 * Tn
      let w := min Tn (W - x)
      let h := min Tn (H - y)
      writeTileClamped cv x y w h (convertRGB (server x y w h)))
    (zeroCanvas H W)

/-- A server returning a tile of exactly the requested size, every sample
equal to `v`, already RGB. -/
def constServer (v : Nat) : Nat → Nat → Nat → Nat → RawImage :=
  fun _ _ w h => { th := h, tw := w, channels := 3, pixel := fun _ _ _ => v }

/-- A server whose tile for the left cell is wider than requested (2 wide
instead of 1) and whose tile for the right cell is degenerate (0 wide). -/
def serverCE : Nat → Nat → Nat → Nat → RawImage :=
  fun x _ _ _ =>
    if x = 0 then { th := 1, tw := 2, channels := 3, pixel := fun _ _ _ => 7 }
    else { th := 1, tw := 0, channels := 3, pixel := fun _ _ _ => 9 }

/-- The full patch grid produced by a no-skip patchify whose stride equals
`patchSize` (helper for the exact-tiling claims). -/
def fullGrid (img : Raster) (P rows cols : Nat) : List Patch :=
  (List.range rows).flatMap (fun j => (List.range cols).map (fun i =>
    { pixelX := P * i, pixelY := P * j,
      pixelW := min P (img.width - P * i),
      pixelH := min P (img.height - P * j), row := j, col := i }))

/- ----------------------------------------------------------------
   Theorems
   ---------------------------------------------------------------- -/

/-- Claim C7: for every invertible 6-parameter affine transform and every
pixel coordinate, `geo_to_pixel` applied to `pixel_to_geo x y t` with the
same transform returns exactly `(x, y)` (the rational model is exact, hence
within any floating-point tolerance), and `geo_to_pixel` fails with the
singular-transform error precisely when the transform is not invertible
(zero determinant). -/
theorem c7_geo_roundtrip (t : AffineT) (x y gx gy : ℚ) :
    (t.det ≠ 0 →
      geo_to_pixel (pixel_to_geo x y t).1 (pixel_to_geo x y t).2 t =
        Except.ok (x, y)) ∧
    (t.det = 0 →
      geo_to_pixel gx gy t = Except.error GeoErr.singularTransform) := by
  constructor
  · intro hdet
    rw [geo_to_pixel, if_neg hdet]
    have hd : t.a * t.e - t.b * t.d ≠ 0 := hdet
    simp only [pixel_to_geo, AffineT.inv, AffineT.det]
    congr 1
    apply Prod.ext <;> simp only [] <;> (field_simp; ring)
  · intro hdet
    rw [geo_to_pixel, if_pos hdet]

/-- Witness for C7 at the concrete transform `(2, 0, 5, 0, 3, 7)` (det 6)
and pixel `(1, 2)`, and the singular transform `(1, 2, 0, 2, 4, 0)`. -/
theorem c7_geo_roundtrip_witness :
    geo_to_pixel (pixel_to_geo 1 2 ⟨2, 0, 5, 0, 3, 7⟩).1
        (pixel_to_geo 1 2 ⟨2, 0, 5, 0, 3, 7⟩).2 ⟨2, 0, 5, 0, 3, 7⟩ =
      Except.ok (1, 2) ∧
    geo_to_pixel 1 2 ⟨1, 2, 0, 2, 4, 0⟩ =
      Except.error GeoErr.singularTransform :=
  ⟨(c7_geo_roundtrip ⟨2, 0, 5, 0, 3, 7⟩ 1 2 1 2).1 (by norm_num [AffineT.det]),
   (c7_geo_roundtrip ⟨1, 2, 0, 2, 4, 0⟩ 1 2 1 2).2 (by norm_num [AffineT.det])⟩

/-- Claim C6 (counterexample): for `w = h = 3`, `scale = 1/2`, the code
requests size `1,1` (Python `int()` truncates `1.5` to `1`), while the
claimed `round(w*scale)` is `2`; so the request size is not
`round(w*scale) × round(h*scale)`. -/
theorem c6_counterexample :
    getRegionSizeParam 3 3 (1/2) = SizeParam.exact 1 1 ∧
    max 1 (Int.toNat (round ((3 : ℚ) * (1/2)))) = 2 := by
  constructor
  · have h1 : ⌊((3 : ℕ) : ℚ) * (1/2)⌋ = 1 := by
      rw [Int.floor_eq_iff]
      norm_num
    rw [getRegionSizeParam, if_pos (by norm_num), h1]
    decide
  · have h2 : round ((3 : ℚ) * (1/2)) = 2 := by
      rw [round_eq, Int.floor_eq_iff]
      norm_num
    rw [h2]
    decide

/-- Claim C6 (amended): for `0 < scale < 1` the single request's explicit
output size is the truncation `int(w*scale) × int(h*scale)` — i.e. the
unique integers `tw, th` with `tw ≤ w*scale < tw + 1` and
`th ≤ h*scale < th + 1` — each clamped to at least 1 (not the rounding the
claim stated); with `scale = 1` the request asks for the full (unscaled)
source resolution. -/
theorem c6_get_region_size (w h : Nat) (scale : ℚ) (hpos : 0 < scale) :
    (scale < 1 →
      getRegionSizeParam w h scale =
        SizeParam.exact (max 1 (Int.toNat ⌊(w : ℚ) * scale⌋))
          (max 1 (Int.toNat ⌊(h : ℚ) * scale⌋)) ∧
      ((Int.toNat ⌊(w : ℚ) * scale⌋ : ℚ) ≤ (w : ℚ) * scale ∧
        (w : ℚ) * scale < (Int.toNat ⌊(w : ℚ) * scale⌋ : ℚ) + 1) ∧
      ((Int.toNat ⌊(h : ℚ) * scale⌋ : ℚ) ≤ (h : ℚ) * scale ∧
        (h : ℚ) * scale < (Int.toNat ⌊(h : ℚ) * scale⌋ : ℚ) + 1)) ∧
    (scale = 1 → getRegionSizeParam w h scale = SizeParam.full) := by
  constructor
  · intro hlt
    refine ⟨by rw [getRegionSizeParam, if_pos hlt], ?_, ?_⟩
    · have h0 : (0 : ℤ) ≤ ⌊(w : ℚ) * scale⌋ :=
        Int.floor_nonneg.mpr (by positivity)
      have hcast : ((Int.toNat ⌊(w : ℚ) * scale⌋ : ℕ) : ℚ) =
          ((⌊(w : ℚ) * scale⌋ : ℤ) : ℚ) := by
        exact_mod_cast congrArg (fun z : ℤ => (z : ℚ)) (Int.toNat_of_nonneg h0)
      rw [hcast]
      exact ⟨Int.floor_le _, Int.lt_floor_add_one _⟩
    · have h0 : (0 : ℤ) ≤ ⌊(h : ℚ) * scale⌋ :=
        Int.floor_nonneg.mpr (by positivity)
      have hcast : ((Int.toNat ⌊(h : ℚ) * scale⌋ : ℕ) : ℚ) =
          ((⌊(h : ℚ) * scale⌋ : ℤ) : ℚ) := by
        exact_mod_cast congrArg (fun z : ℤ => (z : ℚ)) (Int.toNat_of_nonneg h0)
      rw [hcast]
      exact ⟨Int.floor_le _, Int.lt_floor_add_one _⟩
  · intro heq
    rw [getRegionSizeParam, if_neg (by rw [heq]; exact lt_irrefl 1)]

/-- Witness for C6 (amended) at `w = 5`, `h = 9`, `scale = 1/4`. -/
theorem c6_get_region_size_witness :
    (getRegionSizeParam 5 9 (1/4) =
        SizeParam.exact (max 1 (Int.toNat ⌊(5 : ℚ) * (1/4)⌋))
          (max 1 (Int.toNat ⌊(9 : ℚ) * (1/4)⌋)) ∧
      ((Int.toNat ⌊(5 : ℚ) * (1/4)⌋ : ℚ) ≤ (5 : ℚ) * (1/4) ∧
        (5 : ℚ) * (1/4) < (Int.toNat ⌊(5 : ℚ) * (1/4)⌋ : ℚ) + 1) ∧
      ((Int.toNat ⌊(9 : ℚ) * (1/4)⌋ : ℚ) ≤ (9 : ℚ) * (1/4) ∧
        (9 : ℚ) * (1/4) < (Int.toNat ⌊(9 : ℚ) * (1/4)⌋ : ℚ) + 1)) ∧
    getRegionSizeParam 5 9 1 = SizeParam.full :=
  ⟨(c6_get_region_size 5 9 (1/4) (by norm_num)).1 (by norm_num),
   (c6_get_region_size 5 9 1 (by norm_num)).2 rfl⟩

/-- Elements of a Python range are below its stop value. -/
theorem pyRange_lt {stop step i : Nat} (hstep : 0 < step)
    (hi : i < (stop + step - 1) / step) : step * i < stop := by
  have h := (Nat.le_div_iff_mul_le hstep).mp hi
  have h2 : i.succ * step = step * i + step := by
    rw [Nat.succ_mul, Nat.mul_comm]
  omega

/-- Characterization of the patches emitted by one inner loop run: each
comes from some step `i`, with `x = a + stride*i`, `col = c0 + i`, the
clamped extents of the source slice, and positive extent. -/
theorem patchRow_mem_range (img : Raster) (P : Nat) (thr : ℚ) (sb : Bool)
    (y rI stride : Nat) :
    ∀ (n a c0 : Nat) (p : Patch),
      p ∈ patchRow img P thr sb y rI (List.range' a n stride) c0 →
      ∃ i, i < n ∧ p.pixelX = a + stride * i ∧ p.col = c0 + i ∧
        p.row = rI ∧ p.pixelY = y ∧
        p.pixelW = min P (img.width - p.pixelX) ∧
        p.pixelH = min P (img.height - y) ∧
        0 < p.pixelW ∧ 0 < p.pixelH := by
  intro n
  induction n with
  | zero => intro a c0 p hp; simp [patchRow] at hp
  | succ m ih =>
    intro a c0 p hp
    rw [List.range'_succ] at hp
    simp only [patchRow] at hp
    split at hp
    · obtain ⟨i, hi, hx, hc, hrest⟩ := ih (a + stride) (c0 + 1) p hp
      exact ⟨i + 1, by omega, by rw [hx]; ring, by omega, hrest⟩
    · rename_i hne
      split at hp
      · obtain ⟨i, hi, hx, hc, hrest⟩ := ih (a + stride) (c0 + 1) p hp
        exact ⟨i + 1, by omega, by rw [hx]; ring, by omega, hrest⟩
      · rcases List.mem_cons.mp hp with heq | hp2
        · push_neg at hne
          have hph : 0 < min P (img.height - y) := by omega
          have hpw : 0 < min P (img.width - a) := by omega
          subst heq
          exact ⟨0, by omega, rfl, rfl, rfl, rfl, rfl, rfl, hpw, hph⟩
        · obtain ⟨i, hi, hx, hc, hrest⟩ := ih (a + stride) (c0 + 1) p hp2
          exact ⟨i + 1, by omega, by rw [hx]; ring, by omega, hrest⟩

/-- Within one row, emitted patches carry strictly increasing `col`. -/
theorem patchRow_pairwise (img : Raster) (P : Nat) (thr : ℚ) (sb : Bool)
    (y rI stride : Nat) :
    ∀ (n a c0 : Nat),
      (patchRow img P thr sb y rI (List.range' a n stride) c0).Pairwise
        (fun p q => p.col < q.col) := by
  intro n
  induction n with
  | zero => intro a c0; simp [patchRow]
  | succ m ih =>
    intro a c0
    rw [List.range'_succ]
    simp only [patchRow]
    split
    · exact ih (a + stride) (c0 + 1)
    · split
      · exact ih (a + stride) (c0 + 1)
      · refine List.pairwise_cons.mpr ⟨?_, ih (a + stride) (c0 + 1)⟩
        intro q hq
        obtain ⟨i, _, _, hc, _⟩ :=
          patchRow_mem_range img P thr sb y rI stride m (a + stride) (c0 + 1) q hq
        simp only []
        omega

/-- Characterization of the patches emitted by the outer loop: each belongs
to the inner run of some outer step `j`, with `row = r0 + j` and
`y = b + stride*j`. -/
theorem patchRows_mem_range (img : Raster) (P : Nat) (thr : ℚ) (sb : Bool)
    (stride : Nat) :
    ∀ (m b r0 : Nat) (p : Patch),
      p ∈ patchRows img P thr sb stride (List.range' b m stride) r0 →
      ∃ j, j < m ∧ p.row = r0 + j ∧ p.pixelY = b + stride * j ∧
        p ∈ patchRow img P thr sb (b + stride * j) (r0 + j)
          (pyRange img.width stride) 0 := by
  intro m
  induction m with
  | zero => intro b r0 p hp; simp [patchRows] at hp
  | succ k ih =>
    intro b r0 p hp
    rw [List.range'_succ] at hp
    simp only [patchRows] at hp
    rcases List.mem_append.mp hp with hrow | hrest
    · obtain ⟨i, _, _, _, hr, hy, _⟩ := by
        have := patchRow_mem_range img P thr sb b r0 stride
          ((img.width + stride - 1) / stride) 0 0 p (by rwa [pyRange] at hrow)
        exact this
      exact ⟨0, by omega, by omega, by omega, by
        have hb : b + stride * 0 = b := by omega
        rw [hb]; exact hrow⟩
    · obtain ⟨j, hj, hr, hy, hmem⟩ := ih (b + stride) (r0 + 1) p hrest
      refine ⟨j + 1, by omega, by omega, by rw [hy]; ring, ?_⟩
      have h1 : b + stride * (j + 1) = b + stride + stride * j := by ring
      have h2 : r0 + (j + 1) = r0 + 1 + j := by omega
      rw [h1, h2]
      exact hmem

/-- The emitted patch sequence is in row-major order: strictly increasing
in `(row, col)` lexicographically. -/
theorem patchRows_pairwise (img : Raster) (P : Nat) (thr : ℚ) (sb : Bool)
    (stride : Nat) :
    ∀ (m b r0 : Nat),
      (patchRows img P thr sb stride (List.range' b m stride) r0).Pairwise
        (fun p q => p.row < q.row ∨ (p.row = q.row ∧ p.col < q.col)) := by
  intro m
  induction m with
  | zero => intro b r0; simp [patchRows]
  | succ k ih =>
    intro b r0
    rw [List.range'_succ]
    simp only [patchRows]
    rw [List.pairwise_append]
    refine ⟨?_, ih (b + stride) (r0 + 1), ?_⟩
    · have hcols := patchRow_pairwise img P thr sb b r0 stride
        ((img.width + stride - 1) / stride) 0 0
      rw [show List.range' 0 ((img.width + stride - 1) / stride) stride =
        pyRange img.width stride from rfl] at hcols
      refine List.Pairwise.imp_of_mem ?_ hcols
      intro p q hp hq hlt
      obtain ⟨_, _, _, _, hrp, _⟩ := patchRow_mem_range img P thr sb b r0 stride
        ((img.width + stride - 1) / stride) 0 0 p (by rwa [pyRange] at hp)
      obtain ⟨_, _, _, _, hrq, _⟩ := patchRow_mem_range img P thr sb b r0 stride
        ((img.width + stride - 1) / stride) 0 0 q (by rwa [pyRange] at hq)
      right
      exact ⟨by omega, hlt⟩
    · intro p hp q hq
      obtain ⟨_, _, _, _, hrp, _⟩ := patchRow_mem_range img P thr sb b r0 stride
        ((img.width + stride - 1) / stride) 0 0 p (by rwa [pyRange] at hp)
      obtain ⟨j, _, hrq, _⟩ := patchRows_mem_range img P thr sb stride k
        (b + stride) (r0 + 1) q hq
      left
      omega

/-- Claim C2: for every successful patchify call, an emitted patch's `row`
and `col` are its grid position — `pixelY = row * stride` and
`pixelX = col * stride` with `stride = patchSize - overlap` — so `row`
counts completed outer `y` steps and `col` counts inner `x` steps in its
row including discarded ones (skipped cells leave gaps in `col`, never
compacted); and the output sequence is in row-major emission order
(lexicographically increasing `(row, col)`). -/
theorem c2_patch_indexing (img : Raster) (P ov : Nat) (thr : ℚ) (sb : Bool)
    (ps : List Patch) (hok : patchify img P ov thr sb = Except.ok ps) :
    (∀ p ∈ ps, p.pixelX = p.col * (P - ov) ∧ p.pixelY = p.row * (P - ov)) ∧
    ps.Pairwise (fun p q => p.row < q.row ∨ (p.row = q.row ∧ p.col < q.col)) := by
  rw [patchify] at hok
  split at hok
  · exact absurd hok (by simp)
  · simp only [Except.ok.injEq] at hok
    subst hok
    constructor
    · intro p hp
      rw [pyRange] at hp
      obtain ⟨j, _, hr, hy, hmem⟩ := patchRows_mem_range img P thr sb (P - ov)
        ((img.height + (P - ov) - 1) / (P - ov)) 0 0 p hp
      rw [pyRange] at hmem
      obtain ⟨i, _, hx, hc, _⟩ := patchRow_mem_range img P thr sb
        (0 + (P - ov) * j) (0 + j) (P - ov)
        ((img.width + (P - ov) - 1) / (P - ov)) 0 0 p hmem
      constructor
      · rw [hx, hc]; ring
      · rw [hy, hr]; ring
    · have := patchRows_pairwise img P thr sb (P - ov)
        ((img.height + (P - ov) - 1) / (P - ov)) 0 0
      rwa [show List.range' 0 ((img.height + (P - ov) - 1) / (P - ov)) (P - ov) =
        pyRange img.height (P - ov) from rfl] at this

/-- Witness for C2 on a 2x2 all-white raster, patch size 2, overlap 1,
no blank skipping. -/
theorem c2_patch_indexing_witness :
    ((Patch.mk 1 1 1 1 1 1).pixelX = (Patch.mk 1 1 1 1 1 1).col * (2 - 1) ∧
      (Patch.mk 1 1 1 1 1 1).pixelY = (Patch.mk 1 1 1 1 1 1).row * (2 - 1)) ∧
    ([Patch.mk 0 0 2 2 0 0, Patch.mk 1 0 1 2 0 1,
      Patch.mk 0 1 2 1 1 0, Patch.mk 1 1 1 1 1 1]).Pairwise
      (fun p q => p.row < q.row ∨ (p.row = q.row ∧ p.col < q.col)) := by
  have h := c2_patch_indexing (whiteRaster 2 2) 2 1 (19/20) false
    [Patch.mk 0 0 2 2 0 0, Patch.mk 1 0 1 2 0 1,
      Patch.mk 0 1 2 1 1 0, Patch.mk 1 1 1 1 1 1]
    (by rw [patchify]; norm_num; decide)
  exact ⟨h.1 (Patch.mk 1 1 1 1 1 1) (by decide), h.2⟩

/-- Claim C10: every emitted patch of a successful patchify run has origin
exactly `(col * stride, row * stride)` and extent
`min(patchSize, width - pixelX)` by `min(patchSize, height - pixelY)`,
both strictly positive. -/
theorem c10_patch_geometry (img : Raster) (P ov : Nat) (thr : ℚ) (sb : Bool)
    (ps : List Patch) (hok : patchify img P ov thr sb = Except.ok ps) :
    ∀ p ∈ ps, p.pixelX = p.col * (P - ov) ∧ p.pixelY = p.row * (P - ov) ∧
      p.pixelW = min P (img.width - p.pixelX) ∧
      p.pixelH = min P (img.height - p.pixelY) ∧
      0 < p.pixelW ∧ 0 < p.pixelH := by
  rw [patchify] at hok
  split at hok
  · exact absurd hok (by simp)
  · simp only [Except.ok.injEq] at hok
    subst hok
    intro p hp
    rw [pyRange] at hp
    obtain ⟨j, _, hr, hy, hmem⟩ := patchRows_mem_range img P thr sb (P - ov)
      ((img.height + (P - ov) - 1) / (P - ov)) 0 0 p hp
    rw [pyRange] at hmem
    obtain ⟨i, _, hx, hc, _, hy2, hw, hh, hw0, hh0⟩ := patchRow_mem_range img P thr sb
      (0 + (P - ov) * j) (0 + j) (P - ov)
      ((img.width + (P - ov) - 1) / (P - ov)) 0 0 p hmem
    refine ⟨by rw [hx, hc]; ring, by rw [hy, hr]; ring, hw, ?_, hw0, hh0⟩
    rw [hh, hy2]

/-- Witness for C10 on a 3x3 all-white raster, patch size 2, overlap 0,
no blank skipping: the bottom-right patch is clamped to 1x1. -/
theorem c10_patch_geometry_witness :
    (Patch.mk 2 2 1 1 1 1).pixelX = (Patch.mk 2 2 1 1 1 1).col * (2 - 0) ∧
    (Patch.mk 2 2 1 1 1 1).pixelY = (Patch.mk 2 2 1 1 1 1).row * (2 - 0) ∧
    (Patch.mk 2 2 1 1 1 1).pixelW =
      min 2 ((whiteRaster 3 3).width - (Patch.mk 2 2 1 1 1 1).pixelX) ∧
    (Patch.mk 2 2 1 1 1 1).pixelH =
      min 2 ((whiteRaster 3 3).height - (Patch.mk 2 2 1 1 1 1).pixelY) ∧
    0 < (Patch.mk 2 2 1 1 1 1).pixelW ∧ 0 < (Patch.mk 2 2 1 1 1 1).pixelH :=
  c10_patch_geometry (whiteRaster 3 3) 2 0 (19/20) false
    [Patch.mk 0 0 2 2 0 0, Patch.mk 2 0 1 2 0 1,
      Patch.mk 0 2 2 1 1 0, Patch.mk 2 2 1 1 1 1]
    (by rw [patchify]; norm_num; decide)
    (Patch.mk 2 2 1 1 1 1) (by decide)

/-- With `skipBlank = false`, one inner loop run emits a patch for every
step: the full row of the grid. -/
theorem patchRow_noskip (img : Raster) (P : Nat) (thr : ℚ) (y rI stride : Nat)
    (hy : y < img.height) (hP : 0 < P) :
    ∀ (n a c0 : Nat), (∀ i, i < n → a + stride * i < img.width) →
      patchRow img P thr false y rI (List.range' a n stride) c0 =
        (List.range n).map (fun i =>
          { pixelX := a + stride * i, pixelY := y,
            pixelW := min P (img.width - (a + stride * i)),
            pixelH := min P (img.height - y), row := rI, col := c0 + i }) := by
  intro n
  induction n with
  | zero => intro a c0 _; rfl
  | succ m ih =>
    intro a c0 hlt
    have ha : a < img.width := by
      have := hlt 0 (by omega)
      simpa using this
    have hlt2 : ∀ i, i < m → a + stride + stride * i < img.width := by
      intro i hi
      have h3 := hlt (i + 1) (by omega)
      have h4 : stride * (i + 1) = stride * i + stride := by ring
      omega
    rw [List.range'_succ]
    simp only [patchRow]
    rw [if_neg (by omega), if_neg (by simp)]
    rw [ih (a + stride) (c0 + 1) hlt2]
    rw [List.range_succ_eq_map, List.map_cons, List.map_map]
    congr 1
    apply List.map_congr_left
    intro i _
    simp only [Function.comp_apply, Nat.succ_eq_add_one, Patch.mk.injEq,
      Nat.mul_add, Nat.mul_one]
    refine ⟨?_, ?_, ?_, ?_, ?_, ?_⟩ <;> first | trivial | omega

/-- With `skipBlank = false` and stride equal to the patch size, the outer
loop emits the full grid of rows. -/
theorem patchRows_noskip (img : Raster) (P : Nat) (thr : ℚ) (hP : 0 < P) :
    ∀ (m b r0 : Nat), (∀ j, j < m → b + P * j < img.height) →
      patchRows img P thr false P (List.range' b m P) r0 =
        (List.range m).flatMap (fun j =>
          (List.range ((img.width + P - 1) / P)).map (fun i =>
            { pixelX := P * i, pixelY := b + P * j,
              pixelW := min P (img.width - P * i),
              pixelH := min P (img.height - (b + P * j)),
              row := r0 + j, col := i })) := by
  intro m
  induction m with
  | zero => intro b r0 _; rfl
  | succ k ih =>
    intro b r0 hlt
    have hb : b < img.height := by
      have := hlt 0 (by omega)
      simpa using this
    have hlt2 : ∀ j, j < k → b + P + P * j < img.height := by
      intro j hj
      have h3 := hlt (j + 1) (by omega)
      have h4 : P * (j + 1) = P * j + P := by ring
      omega
    have hwlt : ∀ i, i < (img.width + P - 1) / P → 0 + P * i < img.width := by
      intro i hi
      have := pyRange_lt hP hi
      omega
    rw [List.range'_succ]
    simp only [patchRows]
    rw [List.range_succ_eq_map, List.flatMap_cons, List.flatMap_map]
    congr 1
    · rw [pyRange, patchRow_noskip img P thr b r0 P hb hP
        ((img.width + P - 1) / P) 0 0 hwlt]
      apply List.map_congr_left
      intro i _
      simp only [Patch.mk.injEq]
      refine ⟨?_, ?_, ?_, ?_, ?_, ?_⟩ <;> first | trivial | omega
    · rw [ih (b + P) (r0 + 1) hlt2]
      apply List.flatMap_congr
      intro j _
      apply List.map_congr_left
      intro i _
      simp only [Nat.succ_eq_add_one, Patch.mk.injEq, Nat.mul_add, Nat.mul_one]
      refine ⟨?_, ?_, ?_, ?_, ?_, ?_⟩ <;> first | trivial | omega

/-- `patchify` with `skipBlank = false` and overlap 0 returns exactly the
full `⌈H/P⌉ × ⌈W/P⌉` grid of patches. -/
theorem patchify_noskip_eq (img : Raster) (P : Nat) (thr : ℚ) (hP : 0 < P) :
    patchify img P 0 thr false = Except.ok
      (fullGrid img P ((img.height + P - 1) / P) ((img.width + P - 1) / P)) := by
  have hhlt : ∀ j, j < (img.height + P - 1) / P → 0 + P * j < img.height := by
    intro j hj
    have := pyRange_lt hP hj
    omega
  simp only [patchify, Nat.sub_zero]
  rw [if_neg (by omega)]
  congr 1
  rw [pyRange]
  rw [patchRows_noskip img P thr hP ((img.height + P - 1) / P) 0 0 hhlt]
  rw [fullGrid]
  apply List.flatMap_congr
  intro j _
  apply List.map_congr_left
  intro i _
  simp only [Patch.mk.injEq]
  refine ⟨?_, ?_, ?_, ?_, ?_, ?_⟩ <;> first | trivial | omega

/-- Counting occurrences of a single value in a range. -/
theorem countP_range_eq_ite (n k : Nat) :
    (List.range n).countP (fun i => i == k) = if k < n then 1 else 0 := by
  induction n with
  | zero => simp
  | succ m ih =>
    rw [List.range_succ, List.countP_append, ih]
    simp only [List.countP_cons, List.countP_nil, beq_iff_eq]
    split_ifs <;> omega

/-- A point below `P * n` lies in exactly one of the `n` aligned intervals
of width `P`. -/
theorem countP_range_unique (n t P : Nat) (hP : 0 < P) (ht : t < P * n) :
    (List.range n).countP (fun i => decide (P * i ≤ t ∧ t < P * i + P)) = 1 := by
  have hdm := Nat.div_add_mod t P
  have hmod : t % P < P := Nat.mod_lt _ hP
  have hlt : t / P < n := by
    have e : P * n = n * P := Nat.mul_comm P n
    exact (Nat.div_lt_iff_lt_mul hP).mpr (by omega)
  rw [List.countP_congr (q := fun i => i == t / P) ?_]
  · rw [countP_range_eq_ite, if_pos hlt]
  · intro i _
    simp only [decide_eq_true_eq, beq_iff_eq]
    constructor
    · rintro ⟨h1, h2⟩
      have e1 : i * P ≤ t := by
        have e0 : i * P = P * i := Nat.mul_comm i P
        omega
      have e2 : t < (i + 1) * P := by
        have e0 : (i + 1) * P = P * i + P := by ring
        omega
      exact (Nat.div_eq_of_lt_le e1 e2).symm
    · rintro rfl
      have e0 : t / P * P = P * (t / P) := Nat.mul_comm _ _
      have e1 := Nat.div_mul_le_self t P
      exact ⟨by omega, by omega⟩

/-- Summing an indicator over a list counts the satisfying elements. -/
theorem sum_map_ite_countP (l : List Nat) (q : Nat → Bool) :
    (l.map (fun j => if q j = true then 1 else 0)).sum = l.countP q := by
  induction l with
  | nil => rfl
  | cons a l ih =>
    simp only [List.map_cons, List.sum_cons, List.countP_cons, ih]
    split_ifs <;> omega

/-- Ceiling division is exact division on multiples. -/
theorem ceilDiv_of_dvd {P n : Nat} (hP : 0 < P) (hd : P ∣ n) :
    (n + P - 1) / P = n / P := by
  obtain ⟨k, rfl⟩ := hd
  have h1 : P * k + P - 1 = (P - 1) + P * k := by omega
  rw [h1, Nat.add_mul_div_left _ _ hP, Nat.div_eq_of_lt (by omega),
    Nat.mul_comm, Nat.mul_div_cancel _ hP]
  omega

/-- The full grid has `rows * cols` patches. -/
theorem fullGrid_length (img : Raster) (P rows cols : Nat) :
    (fullGrid img P rows cols).length = rows * cols := by
  rw [fullGrid, List.length_flatMap]
  rw [List.map_congr_left (g := fun _ => cols) (by intro j _; simp)]
  rw [show (fun (_ : Nat) => cols) = Function.const Nat cols from rfl]
  rw [List.map_const, List.sum_replicate, List.length_range, smul_eq_mul]

/-- Every pixel of the all-255 raster is white (255 ≥ 250 in all channels). -/
theorem isWhite_white (H W r c : Nat) :
    isWhite (whiteRaster H W) r c = true := by
  rw [isWhite]
  simp [whiteRaster]

/-- On the all-255 raster every pixel of any patch is counted white. -/
theorem whiteCount_white (H W x y pw ph : Nat) :
    whiteCount (whiteRaster H W) x y pw ph = ph * pw := by
  rw [whiteCount, Finset.filter_true_of_mem ?_]
  · rw [Finset.card_product]
    simp
  · intro rc _
    exact isWhite_white H W _ _

/-- Any nonempty patch of the all-255 raster is blank for any threshold
below 1 (its blank ratio is exactly 1). -/
theorem isBlank_white (H W x y pw ph : Nat) (hpw : 0 < pw) (hph : 0 < ph)
    (thr : ℚ) (hthr : thr < 1) :
    isBlank (whiteRaster H W) x y pw ph thr = true := by
  rw [isBlank, if_pos (show (whiteRaster H W).is8bit = true from rfl)]
  simp only [decide_eq_true_eq]
  rw [whiteCount_white]
  have h1 : (0 : ℚ) < (ph : ℚ) := by exact_mod_cast hph
  have h2 : (0 : ℚ) < (pw : ℚ) := by exact_mod_cast hpw
  have hcast : ((ph * pw : ℕ) : ℚ) = (ph : ℚ) * (pw : ℚ) := by push_cast; ring
  rw [hcast, div_self (by positivity)]
  exact hthr

/-- With blank skipping on, an inner loop run over the all-255 raster emits
nothing. -/
theorem patchRow_white (H W P : Nat) (thr : ℚ) (hthr : thr < 1) (y rI : Nat) :
    ∀ (xs : List Nat) (c0 : Nat),
      patchRow (whiteRaster H W) P thr true y rI xs c0 = [] := by
  intro xs
  induction xs with
  | nil => intro c0; rfl
  | cons x xs ih =>
    intro c0
    simp only [patchRow]
    split
    · exact ih _
    · rename_i hne
      rw [if_pos ?_]
      · exact ih _
      · push_neg at hne
        simp only [Bool.true_and]
        exact isBlank_white H W x y _ _ (by omega) (by omega) thr hthr

/-- With blank skipping on, the whole patchify loop over the all-255 raster
emits nothing. -/
theorem patchRows_white (H W P : Nat) (thr : ℚ) (hthr : thr < 1) (stride : Nat) :
    ∀ (ys : List Nat) (r0 : Nat),
      patchRows (whiteRaster H W) P thr true stride ys r0 = [] := by
  intro ys
  induction ys with
  | nil => intro r0; rfl
  | cons y ys ih =>
    intro r0
    simp only [patchRows]
    rw [patchRow_white H W P thr hthr y r0 _ 0, ih]
    rfl

/-- Claim C5 (counterexample): as stated the claim quantifies over all
rasters and all patchify calls with overlap 0 and a divisor patch size, but
with `skipBlank = true` (the default) an all-255 1x1 raster with `P = 1`
yields 0 patches, not `(H/P)*(W/P) = 1`. -/
theorem c5_counterexample :
    patchify (whiteRaster 1 1) 1 0 (19/20) true = Except.ok ([] : List Patch) ∧
    ((whiteRaster 1 1).height / 1) * ((whiteRaster 1 1).width / 1) = 1 := by
  constructor
  · simp only [patchify, Nat.sub_zero]
    rw [if_neg (by omega)]
    rw [patchRows_white 1 1 1 (19/20) (by norm_num) 1 _ 0]
  · rfl

/-- Claim C5 (amended): with `skipBlank = false`, for every raster and
every `patchSize P > 0` dividing both dimensions, patchify with overlap 0
produces exactly `(H/P)*(W/P)` patches and every raster pixel lies in
exactly one emitted patch rectangle (no gaps, no overlaps). -/
theorem c5_exact_tiling (img : Raster) (P : Nat) (thr : ℚ) (ps : List Patch)
    (hP : 0 < P) (hdh : P ∣ img.height) (hdw : P ∣ img.width)
    (hok : patchify img P 0 thr false = Except.ok ps) :
    ps.length = (img.height / P) * (img.width / P) ∧
    ∀ r, r < img.height → ∀ c, c < img.width →
      ps.countP (fun p => decide (p.pixelX ≤ c ∧ c < p.pixelX + p.pixelW ∧
        p.pixelY ≤ r ∧ r < p.pixelY + p.pixelH)) = 1 := by
  have hrows : (img.height + P - 1) / P = img.height / P := ceilDiv_of_dvd hP hdh
  have hcols : (img.width + P - 1) / P = img.width / P := ceilDiv_of_dvd hP hdw
  have hH : P * (img.height / P) = img.height := Nat.mul_div_cancel' hdh
  have hW : P * (img.width / P) = img.width := Nat.mul_div_cancel' hdw
  have heq := patchify_noskip_eq img P thr hP
  rw [hok, hrows, hcols] at heq
  simp only [Except.ok.injEq] at heq
  subst heq
  constructor
  · rw [fullGrid, List.length_flatMap]
    rw [List.map_congr_left (g := fun _ => img.width / P)
      (by intro j _; simp)]
    rw [show (fun (_ : Nat) => img.width / P) =
      Function.const Nat (img.width / P) from rfl]
    rw [List.map_const, List.sum_replicate, List.length_range, smul_eq_mul]
  · intro r hr c hc
    rw [fullGrid, List.countP_flatMap]
    rw [List.map_congr_left (g := fun j =>
      if decide (P * j ≤ r ∧ r < P * j + P) = true then 1 else 0) ?_]
    · rw [sum_map_ite_countP]
      exact countP_range_unique (img.height / P) r P hP (by omega)
    · intro j hj
      simp only [Function.comp_apply, List.countP_map]
      have hjlt : j < img.height / P := List.mem_range.mp hj
      have hminh : min P (img.height - P * j) = P := by
        have h1 : (j + 1) * P ≤ (img.height / P) * P :=
          Nat.mul_le_mul_right _ (by omega)
        have h2 : (img.height / P) * P = img.height := by
          rw [Nat.mul_comm]; exact hH
        have h3 : (j + 1) * P = j * P + P := by ring
        have h4 : j * P = P * j := Nat.mul_comm _ _
        omega
      by_cases hrow : P * j ≤ r ∧ r < P * j + P
      · rw [if_pos (by simpa using hrow)]
        rw [List.countP_congr
          (q := fun i => decide (P * i ≤ c ∧ c < P * i + P)) ?_]
        · exact countP_range_unique (img.width / P) c P hP (by omega)
        · intro i hi
          have hilt : i < img.width / P := List.mem_range.mp hi
          have hminw : min P (img.width - P * i) = P := by
            have h1 : (i + 1) * P ≤ (img.width / P) * P :=
              Nat.mul_le_mul_right _ (by omega)
            have h2 : (img.width / P) * P = img.width := by
              rw [Nat.mul_comm]; exact hW
            have h3 : (i + 1) * P = i * P + P := by ring
            have h4 : i * P = P * i := Nat.mul_comm _ _
            omega
          simp only [Function.comp_apply, decide_eq_true_eq]
          rw [hminh, hminw]
          constructor
          · rintro ⟨ha, hb, _, _⟩
            exact ⟨ha, hb⟩
          · rintro ⟨ha, hb⟩
            exact ⟨ha, hb, hrow.1, hrow.2⟩
      · rw [if_neg (by simpa using hrow)]
        rw [List.countP_eq_zero.mpr ?_]
        intro i _
        simp only [Function.comp_apply, decide_eq_true_eq]
        rw [hminh]
        rintro ⟨_, _, hc1, hc2⟩
        exact hrow ⟨hc1, hc2⟩

/-- Witness for C5 (amended) on a 2x2 all-white raster with `P = 1`,
`skipBlank = false`: 4 patches, and pixel `(r, c) = (1, 0)` lies in
exactly one patch rectangle. -/
theorem c5_exact_tiling_witness :
    ([Patch.mk 0 0 1 1 0 0, Patch.mk 1 0 1 1 0 1,
      Patch.mk 0 1 1 1 1 0, Patch.mk 1 1 1 1 1 1] : List Patch).length =
      ((whiteRaster 2 2).height / 1) * ((whiteRaster 2 2).width / 1) ∧
    ([Patch.mk 0 0 1 1 0 0, Patch.mk 1 0 1 1 0 1,
      Patch.mk 0 1 1 1 1 0, Patch.mk 1 1 1 1 1 1] : List Patch).countP
      (fun p => decide (p.pixelX ≤ 0 ∧ 0 < p.pixelX + p.pixelW ∧
        p.pixelY ≤ 1 ∧ 1 < p.pixelY + p.pixelH)) = 1 := by
  have h := c5_exact_tiling (whiteRaster 2 2) 1 (19/20)
    [Patch.mk 0 0 1 1 0 0, Patch.mk 1 0 1 1 0 1,
      Patch.mk 0 1 1 1 1 0, Patch.mk 1 1 1 1 1 1]
    (by decide) (by norm_num) (by norm_num)
    (by rw [patchify]; norm_num; decide)
  exact ⟨h.1, h.2 1 (by decide) 0 (by decide)⟩

/-- Claim C3: for 8-bit data a patch is skipped exactly when the white
fraction (pixels with every channel at least 250) strictly exceeds the
threshold; consequently an all-255 raster with `skipBlank = true` and
threshold 0.95 yields an empty patch collection, while `skipBlank = false`
yields the full `⌈H/P⌉ × ⌈W/P⌉` grid. -/
theorem c3_blank_skip (H W P : Nat) (hP : 0 < P) (ps : List Patch)
    (hfull : patchify (whiteRaster H W) P 0 (19/20) false = Except.ok ps)
    (img : Raster) (x y pw ph : Nat) (t : ℚ) (h8 : img.is8bit = true)
    (hpw : 0 < pw) (hph : 0 < ph) :
    (isBlank img x y pw ph t = true ↔
      t * ((ph : ℚ) * (pw : ℚ)) < (whiteCount img x y pw ph : ℚ)) ∧
    patchify (whiteRaster H W) P 0 (19/20) true = Except.ok [] ∧
    ps.length = ((H + P - 1) / P) * ((W + P - 1) / P) := by
  refine ⟨?_, ?_, ?_⟩
  · rw [isBlank, if_pos h8]
    simp only [decide_eq_true_eq]
    have h1 : (0 : ℚ) < (ph : ℚ) := by exact_mod_cast hph
    have h2 : (0 : ℚ) < (pw : ℚ) := by exact_mod_cast hpw
    rw [lt_div_iff₀ (by positivity)]
  · simp only [patchify, Nat.sub_zero]
    rw [if_neg (by omega)]
    rw [patchRows_white H W P (19/20) (by norm_num) P _ 0]
  · have heq := patchify_noskip_eq (whiteRaster H W) P (19/20) hP
    rw [hfull] at heq
    simp only [Except.ok.injEq] at heq
    subst heq
    rw [fullGrid_length]
    rfl

/-- Witness for C3 on a 2x2 all-white raster with `P = 1`. -/
theorem c3_blank_skip_witness :
    (isBlank (whiteRaster 2 2) 0 0 1 1 (19/20) = true ↔
      (19/20 : ℚ) * (((1 : ℕ) : ℚ) * ((1 : ℕ) : ℚ)) <
        (whiteCount (whiteRaster 2 2) 0 0 1 1 : ℚ)) ∧
    patchify (whiteRaster 2 2) 1 0 (19/20) true = Except.ok [] ∧
    ([Patch.mk 0 0 1 1 0 0, Patch.mk 1 0 1 1 0 1,
      Patch.mk 0 1 1 1 1 0, Patch.mk 1 1 1 1 1 1] : List Patch).length =
      ((2 + 1 - 1) / 1) * ((2 + 1 - 1) / 1) :=
  c3_blank_skip 2 2 1 (by decide)
    [Patch.mk 0 0 1 1 0 0, Patch.mk 1 0 1 1 0 1,
      Patch.mk 0 1 1 1 1 0, Patch.mk 1 1 1 1 1 1]
    (by rw [patchify]; norm_num; decide)
    (whiteRaster 2 2) 0 0 1 1 (19/20) rfl (by decide) (by decide)

/-- A grid index below the ceiling count stays below the extent. -/
theorem ceil_index_lt (n : Nat) (T : Int) (hT : 0 < T) (i : Nat)
    (hi : i < (⌈(n : ℚ) / (T : ℚ)⌉).toNat) : i * T.toNat < n := by
  have h1 : (i : ℤ) < ⌈(n : ℚ) / (T : ℚ)⌉ := Int.lt_toNat.mp hi
  have h2 : ((i : ℤ) : ℚ) < (n : ℚ) / (T : ℚ) := Int.lt_ceil.mp h1
  have hTq : (0 : ℚ) < (T : ℚ) := by exact_mod_cast hT
  have h3 : ((i : ℤ) : ℚ) * (T : ℚ) < (n : ℚ) := by
    rwa [lt_div_iff₀ hTq] at h2
  have h4 : ((T.toNat : ℕ) : ℚ) = ((T : ℤ) : ℚ) := by
    exact_mod_cast congrArg (fun z : ℤ => (z : ℚ)) (Int.toNat_of_nonneg (le_of_lt hT))
  have h5 : ((i * T.toNat : ℕ) : ℚ) < (n : ℚ) := by
    push_cast
    push_cast at h3 h4
    rw [h4]
    exact h3
  exact_mod_cast h5

/-- `⌈n/T⌉` tiles of size `T` cover at least `n`. -/
theorem le_ceil_mul (n : Nat) (T : Int) (hT : 0 < T) :
    n ≤ (⌈(n : ℚ) / (T : ℚ)⌉).toNat * T.toNat := by
  have hTq : (0 : ℚ) < (T : ℚ) := by exact_mod_cast hT
  have h1 : (n : ℚ) / (T : ℚ) ≤ ((⌈(n : ℚ) / (T : ℚ)⌉ : ℤ) : ℚ) := Int.le_ceil _
  have h2 : (n : ℚ) ≤ ((⌈(n : ℚ) / (T : ℚ)⌉ : ℤ) : ℚ) * (T : ℚ) :=
    (div_le_iff₀ hTq).mp h1
  have h3 : (0 : ℤ) ≤ ⌈(n : ℚ) / (T : ℚ)⌉ := Int.ceil_nonneg (by positivity)
  have h4 : ((⌈(n : ℚ) / (T : ℚ)⌉.toNat : ℕ) : ℚ) =
      ((⌈(n : ℚ) / (T : ℚ)⌉ : ℤ) : ℚ) := by
    exact_mod_cast congrArg (fun z : ℤ => (z : ℚ)) (Int.toNat_of_nonneg h3)
  have h5 : ((T.toNat : ℕ) : ℚ) = ((T : ℤ) : ℚ) := by
    exact_mod_cast congrArg (fun z : ℤ => (z : ℚ)) (Int.toNat_of_nonneg (le_of_lt hT))
  have h6 : (n : ℚ) ≤ ((⌈(n : ℚ) / (T : ℚ)⌉.toNat * T.toNat : ℕ) : ℚ) := by
    push_cast
    push_cast at h4 h5
    rw [h4, h5]
    exact h2
  exact_mod_cast h6

/-- Membership in the row-major tile grid enumeration. -/
theorem mem_tilePairs {rows cols : Int} {p : Nat × Nat} :
    p ∈ tilePairs rows cols ↔ p.1 < rows.toNat ∧ p.2 < cols.toNat := by
  rw [tilePairs]
  simp only [List.mem_flatMap, List.mem_map, List.mem_range]
  constructor
  · rintro ⟨a, ha, b, hb, rfl⟩
    exact ⟨ha, hb⟩
  · rintro ⟨h1, h2⟩
    exact ⟨p.1, h1, p.2, h2, rfl⟩

/-- A negative tile size makes both grid row counts nonpositive, so the
tile loop body never runs: no request is issued, no error is raised, and
the zero canvas is returned as-is. -/
theorem downloadTiled_neg (W H : Nat) (T : Int)
    (server : Nat → Nat → Nat → Nat → RawImage) (hT : T < 0) :
    downloadTiled W H T server = ([], Except.ok (zeroCanvas H W)) := by
  rw [downloadTiled, if_neg (by omega)]
  have hTq : (T : ℚ) < 0 := by exact_mod_cast hT
  have h1 : (H : ℚ) / (T : ℚ) ≤ 0 :=
    div_nonpos_iff.mpr (Or.inl ⟨by positivity, le_of_lt hTq⟩)
  have h2 : ⌈(H : ℚ) / (T : ℚ)⌉ ≤ 0 := Int.ceil_le.mpr (by exact_mod_cast h1)
  have hrows : (gridRows H T).toNat = 0 := by
    rw [gridRows]
    omega
  rw [tilePairs, hrows]
  rfl

/-- Claim C8 (counterexample): with tile size `-512` on a 1000x700 image
the tiled download is not rejected: it issues no request and returns the
all-zero canvas as a successful result. -/
theorem c8_counterexample :
    downloadTiled 1000 700 (-512) (constServer 1) =
      ([], Except.ok (zeroCanvas 700 1000)) :=
  downloadTiled_neg 1000 700 (-512) (constServer 1) (by norm_num)

/-- Claim C8 (amended): a resolved tile size of exactly 0 raises
`ZeroDivisionError` in the grid computation before any tile request is
issued, but a negative tile size is not rejected: the grid row count is
nonpositive, the loop body never runs, and an all-zero canvas is returned
without any network tile request. -/
theorem c8_tile_size_guard (W H : Nat) (T : Int)
    (server : Nat → Nat → Nat → Nat → RawImage) :
    downloadTiled W H 0 server = ([], Except.error FetchErr.zeroDivision) ∧
    (T < 0 → downloadTiled W H T server = ([], Except.ok (zeroCanvas H W))) := by
  constructor
  · rw [downloadTiled]
    simp
  · intro hT
    exact downloadTiled_neg W H T server hT

/-- Witness for C8 (amended) at `W = H = 5`, `T = -3` and `T = 0`. -/
theorem c8_tile_size_guard_witness :
    downloadTiled 5 5 0 (constServer 1) =
      ([], Except.error FetchErr.zeroDivision) ∧
    downloadTiled 5 5 (-3) (constServer 1) =
      ([], Except.ok (zeroCanvas 5 5)) :=
  ⟨(c8_tile_size_guard 5 5 (-3) (constServer 1)).1,
   (c8_tile_size_guard 5 5 (-3) (constServer 1)).2 (by norm_num)⟩

/-- A write that fits inside the canvas succeeds and performs the numpy
slice assignment. -/
theorem writeTile_ok (cv : Canvas) (x y : Nat) (t : RawImage)
    (h1 : y + t.th ≤ cv.height) (h2 : x + t.tw ≤ cv.width) :
    writeTile cv x y t = Except.ok (writeCanvas cv x y t) := by
  rw [writeTile, if_neg (by omega)]

/-- Once a tile write has failed, the remaining loop iterations do nothing:
no further requests, the error is returned. -/
theorem stitch_fold_error (W H Tn : Nat) (server : Nat → Nat → Nat → Nat → RawImage) :
    ∀ (ps : List (Nat × Nat)) (reqs : List Region) (e : FetchErr),
      ps.foldl (stitchStep W H Tn server) (reqs, Except.error e) =
        (reqs, Except.error e) := by
  intro ps
  induction ps with
  | nil => intro reqs e; rfl
  | cons p ps ih => intro reqs e; rw [List.foldl_cons]; exact ih reqs e

/-- Stitching with a server that returns exactly the requested extents (in
RGB): every request is logged with its planned region, the canvas keeps its
dimensions, and each canvas pixel covered by a processed cell carries the
corresponding tile pixel at the translated coordinate. -/
theorem stitch_fold_exact (W H Tn : Nat)
    (server : Nat → Nat → Nat → Nat → RawImage) (hTn : 0 < Tn)
    (hex : ∀ x y w h, (server x y w h).th = h ∧ (server x y w h).tw = w ∧
      (server x y w h).channels = 3) :
    ∀ (ps : List (Nat × Nat)) (reqs : List Region) (cv : Canvas),
      (∀ p ∈ ps, p.1 * Tn < H ∧ p.2 * Tn < W) →
      cv.height = H → cv.width = W →
      ∃ cv2 : Canvas,
        ps.foldl (stitchStep W H Tn server) (reqs, Except.ok cv) =
          (reqs ++ ps.map (regionOf W H Tn), Except.ok cv2) ∧
        cv2.height = H ∧ cv2.width = W ∧ cv2.channels = cv.channels ∧
        ∀ r c ch, cv2.pix r c ch =
          if (r / Tn, c / Tn) ∈ ps ∧ r < H ∧ c < W then
            (server (c / Tn * Tn) (r / Tn * Tn) (min Tn (W - c / Tn * Tn))
              (min Tn (H - r / Tn * Tn))).pixel (r % Tn) (c % Tn) ch
          else cv.pix r c ch := by
  intro ps
  induction ps with
  | nil =>
    intro reqs cv _ hh hw
    exact ⟨cv, by simp, hh, hw, rfl, fun r c ch => by simp⟩
  | cons p ps ih =>
    intro reqs cv hrange hh hw
    obtain ⟨hy, hx⟩ := hrange p (List.mem_cons_self p ps)
    have hth : (convertRGB (server (p.2 * Tn) (p.1 * Tn)
        (min Tn (W - p.2 * Tn)) (min Tn (H - p.1 * Tn)))).th =
        min Tn (H - p.1 * Tn) := (hex _ _ _ _).1
    have htw : (convertRGB (server (p.2 * Tn) (p.1 * Tn)
        (min Tn (W - p.2 * Tn)) (min Tn (H - p.1 * Tn)))).tw =
        min Tn (W - p.2 * Tn) := (hex _ _ _ _).2.1
    rw [List.foldl_cons]
    simp only [stitchStep]
    rw [writeTile_ok _ _ _ _ (by rw [hth, hh]; omega) (by rw [htw, hw]; omega)]
    obtain ⟨cv2, hfold, hh2, hw2, hch2, hpix⟩ :=
      ih (reqs ++ [(p.2 * Tn, p.1 * Tn, min Tn (W - p.2 * Tn),
          min Tn (H - p.1 * Tn))])
        (writeCanvas cv (p.2 * Tn) (p.1 * Tn) (convertRGB (server (p.2 * Tn)
          (p.1 * Tn) (min Tn (W - p.2 * Tn)) (min Tn (H - p.1 * Tn)))))
        (fun q hq => hrange q (List.mem_cons_of_mem p hq)) hh hw
    refine ⟨cv2, ?_, hh2, hw2, hch2, ?_⟩
    · rw [hfold, List.map_cons, List.append_assoc, List.singleton_append]
      rfl
    · intro r c ch
      rw [hpix r c ch]
      by_cases hb : r < H ∧ c < W
      · obtain ⟨hrH, hcW⟩ := hb
        by_cases hin : (r / Tn, c / Tn) ∈ ps
        · rw [if_pos ⟨hin, hrH, hcW⟩,
            if_pos ⟨List.mem_cons_of_mem p hin, hrH, hcW⟩]
        · rw [if_neg (by intro hcontra; exact hin hcontra.1)]
          by_cases hhd : (r / Tn, c / Tn) = p
          · subst hhd
            rw [if_pos ⟨List.mem_cons_self _ _, hrH, hcW⟩]
            dsimp only at hth htw ⊢
            rw [writeCanvas]
            dsimp only
            have hdm := Nat.div_add_mod r Tn
            have hmodr : r % Tn < Tn := Nat.mod_lt _ hTn
            have hdmc := Nat.div_add_mod c Tn
            have hmodc : c % Tn < Tn := Nat.mod_lt _ hTn
            have e1 : r / Tn * Tn = Tn * (r / Tn) := Nat.mul_comm _ _
            have e2 : c / Tn * Tn = Tn * (c / Tn) := Nat.mul_comm _ _
            rw [if_pos ?_]
            · rw [convertRGB]
              dsimp only
              rw [if_neg (by rw [(hex _ _ _ _).2.2]; omega)]
              have e3 : r - r / Tn * Tn = r % Tn := by omega
              have e4 : c - c / Tn * Tn = c % Tn := by omega
              rw [e3, e4]
            · refine ⟨by omega, ?_, by omega, ?_⟩
              · rw [hth]
                omega
              · rw [htw]
                omega
          · rw [if_neg (by
              intro hcontra
              rcases List.mem_cons.mp hcontra.1 with h1 | h1
              · exact hhd h1
              · exact hin h1)]
            rw [writeCanvas]
            dsimp only
            rw [if_neg ?_]
            rintro ⟨h1, h2, h3, h4⟩
            rw [hth] at h2
            rw [htw] at h4
            apply hhd
            have er : r / Tn = p.1 := by
              apply Nat.div_eq_of_lt_le
              · have e0 : p.1 * Tn = Tn * p.1 := Nat.mul_comm _ _
                omega
              · have e0 : (p.1 + 1) * Tn = p.1 * Tn + Tn := by ring
                omega
            have ec : c / Tn = p.2 := by
              apply Nat.div_eq_of_lt_le
              · have e0 : p.2 * Tn = Tn * p.2 := Nat.mul_comm _ _
                omega
              · have e0 : (p.2 + 1) * Tn = p.2 * Tn + Tn := by ring
                omega
            rw [er, ec]
      · rw [if_neg (by intro hcontra; exact hb ⟨hcontra.2.1, hcontra.2.2⟩),
          if_neg (by intro hcontra; exact hb ⟨hcontra.2.1, hcontra.2.2⟩)]
        rw [writeCanvas]
        dsimp only
        rw [if_neg ?_]
        rintro ⟨h1, h2, h3, h4⟩
        rw [hth] at h2
        rw [htw] at h4
        exact hb ⟨by omega, by omega⟩

/-- The per-iteration request log over the whole grid is exactly the
claim-side request plan. -/
theorem gridRegions_eq (W H : Nat) (T : Int) :
    (tilePairs (gridRows H T) (gridCols W T)).map (regionOf W H T.toNat) =
      gridRegions W H T := by
  rw [tilePairs, gridRegions, List.map_flatMap]
  apply List.flatMap_congr
  intro row _
  rw [List.map_map]
  apply List.map_congr_left
  intro col _
  rfl

/-- Claim C1: for every tiled download with positive width, height and tile
size, the issued requests are exactly the `⌈W/T⌉ × ⌈H/T⌉` grid of regions
`x = col*T, y = row*T, w = min(T, W-x), h = min(T, H-y)` in row-major
order, and — when the server returns tiles of exactly the requested size —
every canvas pixel equals the corresponding source tile's pixel at the
translated coordinate. -/
theorem c1_tiled_grid (W H : Nat) (T : Int)
    (server : Nat → Nat → Nat → Nat → RawImage)
    (hW : 0 < W) (hH : 0 < H) (hT : 0 < T)
    (hex : ∀ x y w h, (server x y w h).th = h ∧ (server x y w h).tw = w ∧
      (server x y w h).channels = 3) :
    (downloadTiled W H T server).fst = gridRegions W H T ∧
    ∀ r, r < H → ∀ c, c < W → ∀ ch, ch < 3 →
      canvasPixel (downloadTiled W H T server) r c ch =
        some ((server (c / T.toNat * T.toNat) (r / T.toNat * T.toNat)
          (min T.toNat (W - c / T.toNat * T.toNat))
          (min T.toNat (H - r / T.toNat * T.toNat))).pixel
          (r % T.toNat) (c % T.toNat) ch) := by
  have hWH : 0 < W * H := Nat.mul_pos hW hH
  have hTn : 0 < T.toNat := by omega
  have hrange : ∀ p ∈ tilePairs (gridRows H T) (gridCols W T),
      p.1 * T.toNat < H ∧ p.2 * T.toNat < W := by
    intro p hp
    obtain ⟨h1, h2⟩ := mem_tilePairs.mp hp
    refine ⟨ceil_index_lt H T hT p.1 (by rwa [gridRows] at h1),
      ceil_index_lt W T hT p.2 (by rwa [gridCols] at h2)⟩
  obtain ⟨cv2, hfold, hh2, hw2, hch2, hpix⟩ :=
    stitch_fold_exact W H T.toNat server hTn hex
      (tilePairs (gridRows H T) (gridCols W T)) [] (zeroCanvas H W)
      hrange rfl rfl
  have hdl : downloadTiled W H T server =
      (gridRegions W H T, Except.ok cv2) := by
    rw [downloadTiled, if_neg (by omega), hfold, List.nil_append, gridRegions_eq]
  constructor
  · rw [hdl]
  · intro r hr c hc ch _
    rw [hdl]
    simp only [canvasPixel]
    rw [hpix r c ch]
    rw [if_pos ?_]
    refine ⟨?_, hr, hc⟩
    rw [mem_tilePairs]
    constructor
    · rw [gridRows]
      have hle := le_ceil_mul H T hT
      exact (Nat.div_lt_iff_lt_mul hTn).mpr (by omega)
    · rw [gridCols]
      have hle := le_ceil_mul W T hT
      exact (Nat.div_lt_iff_lt_mul hTn).mpr (by omega)

/-- Witness for C1 at the claim's own scenario: a 1000x700 image with tile
size 512 gives the 2x2 grid whose last tile is 488x188, and a canvas pixel
inside the bottom-right tile carries that tile's value. -/
theorem c1_tiled_grid_witness :
    (downloadTiled 1000 700 512 (constServer 5)).fst =
      [(0, 0, 512, 512), (512, 0, 488, 512),
       (0, 512, 512, 188), (512, 512, 488, 188)] ∧
    canvasPixel (downloadTiled 1000 700 512 (constServer 5)) 600 650 0 =
      some 5 := by
  have h := c1_tiled_grid 1000 700 512 (constServer 5) (by norm_num)
    (by norm_num) (by norm_num) (fun x y w h => ⟨rfl, rfl, rfl⟩)
  constructor
  · rw [h.1]
    have hr : gridRows 700 512 = 2 := by
      rw [gridRows]
      push_cast
      rw [Int.ceil_eq_iff]
      norm_num
    have hc : gridCols 1000 512 = 2 := by
      rw [gridCols]
      push_cast
      rw [Int.ceil_eq_iff]
      norm_num
    rw [gridRegions, hr, hc]
    decide
  · have h2 := h.2 600 (by norm_num) 650 (by norm_num) 0 (by norm_num)
    rw [h2]
    rfl

/-- Facts preserved by the stitch loop whenever it completes successfully:
canvas dimensions and channel count never change, pixels covered by no
processed tile's returned extent keep their value, and pixel values stay
below any bound satisfied by the decoded tiles and the initial canvas. -/
theorem stitch_fold_ok_facts (W H Tn : Nat)
    (server : Nat → Nat → Nat → Nat → RawImage) :
    ∀ (ps : List (Nat × Nat)) (reqs : List Region) (cv : Canvas)
      (reqs2 : List Region) (cv2 : Canvas),
      ps.foldl (stitchStep W H Tn server) (reqs, Except.ok cv) =
        (reqs2, Except.ok cv2) →
      (cv2.height = cv.height ∧ cv2.width = cv.width ∧
        cv2.channels = cv.channels) ∧
      (∀ r c ch, (∀ p ∈ ps, ¬ coveredBy W H Tn server p r c) →
        cv2.pix r c ch = cv.pix r c ch) ∧
      (∀ B : Nat, (∀ x y w h r c ch, (server x y w h).pixel r c ch < B) →
        (∀ r c ch, cv.pix r c ch < B) → ∀ r c ch, cv2.pix r c ch < B) := by
  intro ps
  induction ps with
  | nil =>
    intro reqs cv reqs2 cv2 hfold
    rw [List.foldl_nil, Prod.mk.injEq] at hfold
    obtain ⟨h1, h2⟩ := hfold
    rw [Except.ok.injEq] at h2
    subst h2
    exact ⟨⟨rfl, rfl, rfl⟩, fun r c ch _ => rfl, fun B _ hcv r c ch => hcv r c ch⟩
  | cons p ps ih =>
    intro reqs cv reqs2 cv2 hfold
    rw [List.foldl_cons] at hfold
    simp only [stitchStep] at hfold
    rcases hwt : writeTile cv (p.2 * Tn) (p.1 * Tn)
        (convertRGB (server (p.2 * Tn) (p.1 * Tn)
          (min Tn (W - p.2 * Tn)) (min Tn (H - p.1 * Tn)))) with e | cv1
    · rw [hwt, stitch_fold_error] at hfold
      rw [Prod.mk.injEq] at hfold
      exact absurd hfold.2 (by simp)
    · rw [hwt] at hfold
      have hcv1 : cv1 = writeCanvas cv (p.2 * Tn) (p.1 * Tn)
          (convertRGB (server (p.2 * Tn) (p.1 * Tn)
            (min Tn (W - p.2 * Tn)) (min Tn (H - p.1 * Tn)))) := by
        rw [writeTile] at hwt
        split at hwt
        · exact absurd hwt (by simp)
        · rw [Except.ok.injEq] at hwt
          exact hwt.symm
      subst hcv1
      obtain ⟨hdims, hun, hbnd⟩ := ih _ _ reqs2 cv2 hfold
      refine ⟨hdims, ?_, ?_⟩
      · intro r c ch hnc
        rw [hun r c ch (fun q hq => hnc q (List.mem_cons_of_mem p hq))]
        rw [writeCanvas]
        dsimp only
        rw [if_neg ?_]
        intro hcond
        exact hnc p (List.mem_cons_self p ps) hcond
      · intro B hsrv hcv r c ch
        apply hbnd B hsrv ?_ r c ch
        intro a b d
        rw [writeCanvas]
        dsimp only
        split
        · rw [convertRGB]
          dsimp only
          split
          · exact hsrv _ _ _ _ _ _ _
          · exact hsrv _ _ _ _ _ _ _
        · exact hcv a b d

/-- Claim C9: whenever the tiled download succeeds, the returned canvas
has shape exactly `height × width × 3` with 8-bit samples (values below
256 whenever every decoded tile sample is), and every pixel not covered by
any tile write remains zero. -/
theorem c9_canvas_shape (W H : Nat) (T : Int)
    (server : Nat → Nat → Nat → Nat → RawImage) (reqs : List Region)
    (cv : Canvas)
    (hbyte : ∀ x y w h r c ch, (server x y w h).pixel r c ch < 256)
    (hok : downloadTiled W H T server = (reqs, Except.ok cv)) :
    cv.height = H ∧ cv.width = W ∧ cv.channels = 3 ∧
    (∀ r c ch, cv.pix r c ch < 256) ∧
    (∀ r c ch, (∀ p ∈ tilePairs (gridRows H T) (gridCols W T),
      ¬ coveredBy W H T.toNat server p r c) → cv.pix r c ch = 0) := by
  rw [downloadTiled] at hok
  split at hok
  · rw [Prod.mk.injEq] at hok
    exact absurd hok.2 (by simp)
  · obtain ⟨hdims, hun, hbnd⟩ := stitch_fold_ok_facts W H T.toNat server
      (tilePairs (gridRows H T) (gridCols W T)) [] (zeroCanvas H W) reqs cv hok
    refine ⟨hdims.1, hdims.2.1, hdims.2.2, ?_, ?_⟩
    · exact hbnd 256 hbyte (fun r c ch => by simp [zeroCanvas])
    · intro r c ch hnc
      exact hun r c ch hnc

/-- Witness for C9 at `W = H = 1` with tile size `-1` (empty grid):
the zero canvas is returned with the right shape, byte-bounded values and
zero at the untouched pixel. -/
theorem c9_canvas_shape_witness :
    (zeroCanvas 1 1).height = 1 ∧ (zeroCanvas 1 1).width = 1 ∧
    (zeroCanvas 1 1).channels = 3 ∧ (zeroCanvas 1 1).pix 0 0 0 < 256 ∧
    (zeroCanvas 1 1).pix 0 0 0 = 0 := by
  have hgr : gridRows 1 (-1) = -1 := by
    rw [gridRows]
    push_cast
    rw [Int.ceil_eq_iff]
    norm_num
  have hempty : ∀ p ∈ tilePairs (gridRows 1 (-1)) (gridCols 1 (-1)),
      ¬ coveredBy 1 1 (Int.toNat (-1)) (constServer 9) p 0 0 := by
    intro p hp
    rw [tilePairs, hgr] at hp
    simp at hp
  have h := c9_canvas_shape 1 1 (-1) (constServer 9) [] (zeroCanvas 1 1)
    (fun x y w hh r c ch => by norm_num [constServer])
    (downloadTiled_neg 1 1 (-1) (constServer 9) (by norm_num))
  exact ⟨h.1, h.2.1, h.2.2.1, h.2.2.2.1 0 0 0, h.2.2.2.2 0 0 0 hempty⟩

/-- A write whose returned tile is no larger than requested and whose
expected region fits the canvas equals the spec's defensively clamped
write. -/
theorem writeTile_eq_clamped (cv : Canvas) (x y w h : Nat) (t : RawImage)
    (hth : t.th ≤ h) (htw : t.tw ≤ w) (hyh : y + h ≤ cv.height)
    (hxw : x + w ≤ cv.width) :
    writeTile cv x y t = Except.ok (writeTileClamped cv x y w h t) := by
  rw [writeTile, if_neg (by omega)]
  congr 1
  rw [writeCanvas, writeTileClamped]
  congr 1
  funext r c ch
  have h1 : min (y + min t.th h) cv.height = y + t.th := by omega
  have h2 : min (x + min t.tw w) cv.width = x + t.tw := by omega
  rw [h1, h2]

/-- When every returned tile is no larger than requested, the code's stitch
loop agrees step by step with the spec's clamped stitch loop. -/
theorem stitch_fold_clamped (W H Tn : Nat)
    (server : Nat → Nat → Nat → Nat → RawImage)
    (hle : ∀ x y w h, (server x y w h).th ≤ h ∧ (server x y w h).tw ≤ w) :
    ∀ (ps : List (Nat × Nat)) (reqs : List Region) (cv : Canvas),
      (∀ p ∈ ps, p.1 * Tn < H ∧ p.2 * Tn < W) →
      cv.height = H → cv.width = W →
      ps.foldl (stitchStep W H Tn server) (reqs, Except.ok cv) =
        (reqs ++ ps.map (regionOf W H Tn),
         Except.ok (ps.foldl (fun cv2 rc =>
           writeTileClamped cv2 (rc.2 * Tn) (rc.1 * Tn)
             (min Tn (W - rc.2 * Tn)) (min Tn (H - rc.1 * Tn))
             (convertRGB (server (rc.2 * Tn) (rc.1 * Tn)
               (min Tn (W - rc.2 * Tn)) (min Tn (H - rc.1 * Tn)))))
           cv)) := by
  intro ps
  induction ps with
  | nil => intro reqs cv _ _ _; simp
  | cons p ps ih =>
    intro reqs cv hrange hh hw
    obtain ⟨hy, hx⟩ := hrange p (List.mem_cons_self p ps)
    have hsle := hle (p.2 * Tn) (p.1 * Tn) (min Tn (W - p.2 * Tn))
      (min Tn (H - p.1 * Tn))
    rw [List.foldl_cons]
    simp only [stitchStep]
    rw [writeTile_eq_clamped cv (p.2 * Tn) (p.1 * Tn)
      (min Tn (W - p.2 * Tn)) (min Tn (H - p.1 * Tn))
      (convertRGB (server (p.2 * Tn) (p.1 * Tn) (min Tn (W - p.2 * Tn))
        (min Tn (H - p.1 * Tn))))
      hsle.1 hsle.2 (by rw [hh]; omega) (by rw [hw]; omega)]
    rw [ih (reqs ++ [(p.2 * Tn, p.1 * Tn, min Tn (W - p.2 * Tn),
        min Tn (H - p.1 * Tn))])
      (writeTileClamped cv (p.2 * Tn) (p.1 * Tn) (min Tn (W - p.2 * Tn))
        (min Tn (H - p.1 * Tn)) (convertRGB (server (p.2 * Tn) (p.1 * Tn)
          (min Tn (W - p.2 * Tn)) (min Tn (H - p.1 * Tn)))))
      (fun q hq => hrange q (List.mem_cons_of_mem p hq)) hh hw]
    rw [List.map_cons, List.append_assoc, List.singleton_append, List.foldl_cons]
    rfl

/-- Claim C4 (amended): when every returned tile's dimensions are at most
the requested `w × h`, the code's stitch equals the spec's defensive-clamp
stitch (each write stays inside its expected grid-cell region); without
that hypothesis the code writes the full returned extent, which can spill
outside the expected cell (see the counterexample). -/
theorem c4_stitch_clamp (W H : Nat) (T : Int)
    (server : Nat → Nat → Nat → Nat → RawImage) (hT : 0 < T)
    (hle : ∀ x y w h, (server x y w h).th ≤ h ∧ (server x y w h).tw ≤ w) :
    (downloadTiled W H T server).snd =
      Except.ok (downloadTiledSpec W H T.toNat server) := by
  have hTn : 0 < T.toNat := by omega
  have hrange : ∀ p ∈ tilePairs (gridRows H T) (gridCols W T),
      p.1 * T.toNat < H ∧ p.2 * T.toNat < W := by
    intro p hp
    obtain ⟨h1, h2⟩ := mem_tilePairs.mp hp
    refine ⟨ceil_index_lt H T hT p.1 (by rwa [gridRows] at h1),
      ceil_index_lt W T hT p.2 (by rwa [gridCols] at h2)⟩
  rw [downloadTiledSpec, Int.toNat_of_nonneg (show (0 : ℤ) ≤ T from by omega)]
  rw [downloadTiled, if_neg (by omega)]
  rw [stitch_fold_clamped W H T.toNat server hle
    (tilePairs (gridRows H T) (gridCols W T)) [] (zeroCanvas H W)
    hrange rfl rfl]

/-- Claim C4 (counterexample): on a 2x1 canvas with tile size 1, the tile
for cell `(0,0)` comes back 2 pixels wide; the code writes the full
returned extent, so pixel `(0,1)` — outside that tile's expected 1x1 cell,
and written by no other tile (`(0,1)`'s tile comes back 0 wide) — ends up
7, while the spec's clamped stitch leaves it 0. -/
theorem c4_counterexample :
    canvasPixel (downloadTiled 2 1 1 serverCE) 0 1 0 = some 7 ∧
    (downloadTiledSpec 2 1 1 serverCE).pix 0 1 0 = 0 := by
  have hgr : gridRows 1 1 = 1 := by
    rw [gridRows]
    push_cast
    rw [Int.ceil_eq_iff]
    norm_num
  have hgc : gridCols 2 1 = 2 := by
    rw [gridCols]
    push_cast
    rw [Int.ceil_eq_iff]
    norm_num
  constructor
  · rw [downloadTiled, if_neg (by norm_num), tilePairs, hgr, hgc]
    decide
  · rw [downloadTiledSpec, Nat.cast_one, tilePairs, hgr, hgc]
    decide

/-- Witness for C4 (amended) with an exact-size server on a 2x1 grid. -/
theorem c4_stitch_clamp_witness :
    (downloadTiled 2 1 1 (constServer 4)).snd =
      Except.ok (downloadTiledSpec 2 1 1 (constServer 4)) :=
  c4_stitch_clamp 2 1 1 (constServer 4) (by norm_num)
    (fun x y w h => ⟨Nat.le_refl h, Nat.le_refl w⟩)
